import Mathlib

/-!
Shallow embedding of the chunked-I/O / codec-pipeline core of the `zarrs`
repository: the default array partial encoder, the sharding partial encoder,
the chunk-cache layer (count-limited and weighted LRU) and the cached chunk
retrieval path.  Definitions are translated from the Rust sources; helpers
whose implementation is outside the excerpted sources are either taken as
explicit function parameters or modelled from the specification (marked in
their doc comments).
-/

namespace Zarrs

/-- The value `u64::MAX`, used by the sharding codec as the "inner chunk absent" sentinel. -/
def U64MAX : Nat := 2 ^ 64 - 1

/-- The value `u32::MAX`, the saturation point of the moka cache weigher. -/
def U32MAX : Nat := 2 ^ 32 - 1

/-- Raw encoded bytes (`RawBytes` in the source), modelled as a list of byte values. -/
abbrev RawBytes := List Nat

/-- Decoded chunk data (`ArrayBytes` in the source): either a fixed-width contiguous
buffer or a variable-width `(data, offsets)` pair. -/
inductive ArrayBytes where
  | fixed (data : List Nat)
  | vlen (data : List Nat) (offsets : List Nat)
deriving DecidableEq

/-- Codec errors (`CodecError` in the source), abstracted to a tag plus the
dedicated validation failure used by `ArrayBytes::validate`. -/
inductive CodecError where
  | other (tag : Nat)
  | validation
deriving DecidableEq

/-- An axis-aligned rectangular region (`ArraySubset` in the source). -/
structure ArraySubset where
  start : List Nat
  shape : List Nat
deriving DecidableEq

/-- A chunk representation (`ChunkRepresentation` in the source): chunk shape,
data type size (`some s` = fixed width `s`, `none` = variable width) and the
raw bytes of the fill value for a single element. -/
structure ChunkRepresentation where
  shape : List Nat
  dataTypeSize : Option Nat
  fillValue : List Nat
deriving DecidableEq

/-- Number of elements of a chunk representation (product of the shape). -/
def ChunkRepresentation.numElements (rep : ChunkRepresentation) : Nat :=
  rep.shape.prod

/-- Modelled from the spec: `ArrayBytes::new_fill_value` (in `array_bytes.rs`,
not among the excerpted sources).  "Absent chunks appear to readers as a buffer
filled with the array's fill value": the fill value bytes repeated once per
element; for variable-width data the offsets step by the fill value length. -/
def ArrayBytes.new_fill_value (rep : ChunkRepresentation) : ArrayBytes :=
  match rep.dataTypeSize with
  | some _ => ArrayBytes.fixed (List.replicate rep.numElements rep.fillValue).flatten
  | none =>
      ArrayBytes.vlen (List.replicate rep.numElements rep.fillValue).flatten
        ((List.range (rep.numElements + 1)).map (fun i => i * rep.fillValue.length))

/-- Modelled from the spec: `ArrayBytes::validate` (in `array_bytes.rs`, not among
the excerpted sources).  Fixed: `len(data) == num_elements * element_size`.
Variable: `offsets.len() == num_elements + 1`, offsets monotonically
non-decreasing, `offsets[0] == 0`, `offsets[last] == data.len()`. -/
def ArrayBytes.validate (b : ArrayBytes) (numElements : Nat) (dataTypeSize : Option Nat) : Bool :=
  match b, dataTypeSize with
  | ArrayBytes.fixed data, some s => data.length == numElements * s
  | ArrayBytes.vlen data offsets, none =>
      offsets.length == numElements + 1 &&
      offsets.headD 0 == 0 &&
      offsets.getLastD 0 == data.length &&
      (offsets.zip offsets.tail).all (fun p => decide (p.1 ≤ p.2))
  | _, _ => false

/-- Modelled from the spec: `ArrayBytes::is_fill_value` (in `array_bytes.rs`, not
among the excerpted sources): "the result equals the fill value". -/
def ArrayBytes.is_fill_value (b : ArrayBytes) (rep : ChunkRepresentation) : Bool :=
  b == ArrayBytes.new_fill_value rep

/-- Total in-memory byte size of decoded chunk data.  Modelled from the spec:
"decoded → total bytes including variable-width offsets" (`ArrayBytes::size` is
not among the excerpted sources); each offset is a 64-bit word. -/
def ArrayBytes.size : ArrayBytes → Nat
  | ArrayBytes.fixed data => data.length
  | ArrayBytes.vlen data offsets => data.length + 8 * offsets.length

/-- An array→bytes codec (`ArrayToBytesCodecTraits`): whole-chunk encode and decode. -/
structure ArrayToBytesCodec where
  enc : ArrayBytes → Except CodecError RawBytes
  dec : RawBytes → Except CodecError ArrayBytes

/-- An action issued to the output handle of a partial encoder: either erasing the
chunk key or writing `bytes` at byte offset `offset`. -/
inductive OutputAction where
  | erase
  | write (offset : Nat) (bytes : RawBytes)
deriving DecidableEq

/-- Embedding of `ArrayPartialEncoderDefault::partial_encode_opt`
(`src/array/codec/array_partial_encoder_default.rs`).  The `input_handle` is the
result of `self.input_handle.decode(options)`: an error, or the full encoded
chunk, or `none` when the chunk key is absent.  `update_array_bytes` (defined in
`array_bytes.rs`, outside the excerpted sources) is passed as a function
parameter: `update_array_bytes chunk chunk_shape subset_bytes subset size`. -/
def ArrayPartialEncoderDefault.partial_encode_opt
    (codec : ArrayToBytesCodec)
    (update_array_bytes : ArrayBytes → List Nat → ArrayBytes → ArraySubset → Option Nat → ArrayBytes)
    (rep : ChunkRepresentation)
    (input_handle : Except CodecError (Option RawBytes))
    (store_empty_chunks : Bool)
    (chunk_subsets : List ArraySubset)
    (chunk_subsets_bytes : List ArrayBytes) :
    Except CodecError (List OutputAction) :=
  match input_handle with
  | Except.error e => Except.error e
  | Except.ok chunk_bytes_opt =>
    match (match chunk_bytes_opt with
           | some bytes => codec.dec bytes
           | none => Except.ok (ArrayBytes.new_fill_value rep)) with
    | Except.error e => Except.error e
    | Except.ok chunk_bytes =>
      if chunk_bytes.validate rep.numElements rep.dataTypeSize then
        let chunk_bytes := (List.zip chunk_subsets chunk_subsets_bytes).foldl
          (fun acc p => update_array_bytes acc rep.shape p.2 p.1 rep.dataTypeSize) chunk_bytes
        if !store_empty_chunks && chunk_bytes.is_fill_value rep then
          Except.ok [OutputAction.erase]
        else
          match codec.enc chunk_bytes with
          | Except.error e => Except.error e
          | Except.ok encoded => Except.ok [OutputAction.write 0 encoded]
      else Except.error CodecError.validation

/-- The weigher of `ChunkCacheLruSizeLimit<ChunkCacheTypeEncoded>` from
`chunk_cache_lru_size_limit.rs`: `v.map_or(0, |v| u32::try_from(v.len()).unwrap_or(u32::MAX))`. -/
def encodedWeigher (v : Option RawBytes) : Nat :=
  match v with
  | none => 0
  | some b => if b.length ≤ U32MAX then b.length else U32MAX

/-- The weigher of `ChunkCacheLruSizeLimit<ChunkCacheTypeDecoded>` from
`chunk_cache_lru_size_limit.rs`: `u32::try_from(v.size()).unwrap_or(u32::MAX)`. -/
def decodedWeigher (v : ArrayBytes) : Nat :=
  if v.size ≤ U32MAX then v.size else U32MAX

/-- Embedding of the default `ChunkCache::try_get_or_insert_with` from
`chunk_cache.rs`, generic over the cache implementation through its `get` and
`insert` operations.  The returned `Nat` counts, by construction, the number of
times the supplied closure `f` was invoked. -/
def ChunkCache.try_get_or_insert_with {C V E : Type}
    (get : C → List Nat → Option V)
    (insert : C → List Nat → V → C)
    (cache : C) (chunk_indices : List Nat)
    (f : Unit → Except E V) :
    Except E V × C × Nat :=
  match get cache chunk_indices with
  | some chunk => (Except.ok chunk, cache, 0)
  | none =>
      match f () with
      | Except.error e => (Except.error e, cache, 1)
      | Except.ok chunk => (Except.ok chunk, insert cache chunk_indices chunk, 1)

/-- The location of the shard index within a shard (`ShardingIndexLocation`). -/
inductive ShardingIndexLocation where
  | start
  | end_
deriving DecidableEq

/-- Parameters of `ShardingPartialEncoder` (`sharding_partial_encoder.rs`).
The collaborators that live outside the excerpted sources are function-valued
fields: `decodeShardIndex` models `decode_shard_index_partial_decoder` over the
input handle, `inputPartialDecode` models `input_handle.partial_decode` of one
byte range, `innerDec`/`innerEnc` model `inner_codecs.decode`/`encode`,
`indexEnc` models `index_codecs.encode` of the shard index,
`index_encoded_size` models `compute_index_encoded_size`, `innerChunksOf`
models `chunk_grid.chunks_in_array_subset(..).indices()` followed by
`ravel_indices`, and `updateInner` models `extract_array_subset` of the request
bytes followed by `update_array_bytes` of the decoded inner chunk. -/
structure ShardingParams where
  numChunks : Nat
  innerRep : ChunkRepresentation
  decodeShardIndex : Except CodecError (Option (List Nat))
  inputPartialDecode : Nat → Nat → Except CodecError (Option RawBytes)
  innerDec : RawBytes → Except CodecError ArrayBytes
  innerEnc : ArrayBytes → Except CodecError RawBytes
  indexEnc : List Nat → Except CodecError RawBytes
  index_encoded_size : Except CodecError Nat
  index_location : ShardingIndexLocation
  innerChunksOf : ArraySubset → Except CodecError (List Nat)
  updateInner : ArrayBytes → ArraySubset → ArrayBytes → Nat → Except CodecError ArrayBytes

/-- Replace the value stored for key `k` in an association list (the map values
are mutated in place in the source; keys are unchanged). -/
def assocSet (m : List (Nat × ArrayBytes)) (k : Nat) (v : ArrayBytes) :
    List (Nat × ArrayBytes) :=
  m.map (fun p => if p.1 = k then (k, v) else p)

/-- Decoding one inner chunk given its shard-index entry `(offset, size)`
(`sharding_partial_encoder.rs`): a sentinel entry, or an absent byte range,
materialises the inner chunk as the fill value; otherwise the stored bytes are
decoded through the inner codec chain. -/
def decodeInnerChunk (P : ShardingParams) (offset size : Nat) :
    Except CodecError ArrayBytes :=
  if offset = U64MAX ∧ size = U64MAX then
    Except.ok (ArrayBytes.new_fill_value P.innerRep)
  else
    match P.inputPartialDecode offset size with
    | Except.error e => Except.error e
    | Except.ok (some bytes) => P.innerDec bytes
    | Except.ok none => Except.ok (ArrayBytes.new_fill_value P.innerRep)

/-- Body of the inner loop of `ShardingPartialEncoder::partial_encode_opt` for a
single touched inner chunk: on first touch, read the chunk's `(offset, size)`
entry, reset it to the sentinel, decode the inner chunk and insert it into the
in-memory map; then update the decoded chunk with the request's overlap. -/
def processInnerChunk (P : ShardingParams) (subset : ArraySubset)
    (subset_bytes : ArrayBytes)
    (st : List (Nat × ArrayBytes) × List Nat) (idx : Nat) :
    Except CodecError (List (Nat × ArrayBytes) × List Nat) :=
  let m := st.1
  let si := st.2
  let next : Except CodecError (List (Nat × ArrayBytes) × List Nat) :=
    match List.lookup idx m with
    | some _ => Except.ok (m, si)
    | none =>
        let offset := si.getD (2 * idx) 0
        let size := si.getD (2 * idx + 1) 0
        let si := (si.set (2 * idx) U64MAX).set (2 * idx + 1) U64MAX
        match decodeInnerChunk P offset size with
        | Except.error e => Except.error e
        | Except.ok decoded => Except.ok (m ++ [(idx, decoded)], si)
  match next with
  | Except.error e => Except.error e
  | Except.ok (m, si) =>
      match List.lookup idx m with
      | some decoded =>
          match P.updateInner decoded subset subset_bytes idx with
          | Except.error e => Except.error e
          | Except.ok updated => Except.ok (assocSet m idx updated, si)
      | none => Except.error (CodecError.other 0)

/-- The read-decode-update phase of `ShardingPartialEncoder::partial_encode_opt`:
for each `(subset, subset_bytes)` request, enumerate the inner chunks it
touches and process each one. -/
def updatePhase (P : ShardingParams) (requests : List (ArraySubset × ArrayBytes))
    (st : List (Nat × ArrayBytes) × List Nat) :
    Except CodecError (List (Nat × ArrayBytes) × List Nat) :=
  requests.foldlM
    (fun st req =>
      match P.innerChunksOf req.1 with
      | Except.error e => Except.error e
      | Except.ok idxs => idxs.foldlM (processInnerChunk P req.1 req.2) st)
    st

/-- `max_data_offset` from `ShardingPartialEncoder::partial_encode_opt`: the
maximum over consecutive `(offset, size)` pairs of the shard index of
`offset + size`, a sentinel pair contributing `0`. -/
def max_data_offset : List Nat → Nat
  | o :: s :: rest =>
      max (if o = U64MAX ∧ s = U64MAX then 0 else o + s) (max_data_offset rest)
  | _ => 0

/-- The contribution of the `i`-th `(offset, size)` pair of a shard index to
`max_data_offset`. -/
def pairContribution (si : List Nat) (i : Nat) : Nat :=
  if si.getD (2 * i) 0 = U64MAX ∧ si.getD (2 * i + 1) 0 = U64MAX then 0
  else si.getD (2 * i) 0 + si.getD (2 * i + 1) 0

/-- The initial append offset of `ShardingPartialEncoder::partial_encode_opt`:
the maximum existing data end, raised to at least the encoded index size when
the index is located at the start of the shard. -/
def offsetAppendOf (loc : ShardingIndexLocation) (mdo ies : Nat) : Nat :=
  match loc with
  | ShardingIndexLocation.start => max mdo ies
  | ShardingIndexLocation.end_ => mdo

/-- The write loop of `ShardingPartialEncoder::partial_encode_opt`: encode each
updated inner chunk, write it at the current append offset, set its index entry
to `(offset, len)` and advance the append offset by `len`.  Returns the list of
writes issued to the output handle together with either the final
`(shard_index, offset_append)` or the first error; writes issued before an
error stay in the list. -/
def writeUpdatedChunks (P : ShardingParams) (chunks : List (Nat × ArrayBytes))
    (si : List Nat) (offset_append : Nat) :
    List (Nat × RawBytes) × Except CodecError (List Nat × Nat) :=
  match chunks with
  | [] => ([], Except.ok (si, offset_append))
  | (idx, dec) :: rest =>
      match P.innerEnc dec with
      | Except.error e => ([], Except.error e)
      | Except.ok bytes =>
          let len := bytes.length
          let si := (si.set (2 * idx) offset_append).set (2 * idx + 1) len
          let r := writeUpdatedChunks P rest si (offset_append + len)
          ((offset_append, bytes) :: r.1, r.2)

/-- The remainder of `ShardingPartialEncoder::partial_encode_opt` once the
in-memory shard index has been resolved: run the update phase, compute the
append offset, run the write loop and write the re-encoded shard index at its
configured location.  Returns the byte-range writes issued to the output
handle (in order) and either success or the first error; on error the writes
already issued remain in the list and nothing further is written. -/
def partialEncodeWithIndex (P : ShardingParams)
    (requests : List (ArraySubset × ArrayBytes)) (shard_index : List Nat) :
    List (Nat × RawBytes) × Except CodecError Unit :=
  match updatePhase P requests ([], shard_index) with
  | Except.error e => ([], Except.error e)
  | Except.ok (m, si) =>
    match P.index_encoded_size with
    | Except.error e => ([], Except.error e)
    | Except.ok ies =>
      let offset_append := offsetAppendOf P.index_location (max_data_offset si) ies
      let r := writeUpdatedChunks P m si offset_append
      match r.2 with
      | Except.error e => (r.1, Except.error e)
      | Except.ok (si2, off2) =>
        match P.indexEnc si2 with
        | Except.error e => (r.1, Except.error e)
        | Except.ok encIdx =>
          let iw := match P.index_location with
            | ShardingIndexLocation.start => (0, encIdx)
            | ShardingIndexLocation.end_ => (off2, encIdx)
          (r.1 ++ [iw], Except.ok ())

/-- Embedding of `ShardingPartialEncoder::partial_encode_opt`
(`sharding_partial_encoder.rs`): decode the shard index (absent: all entries
initialised to the sentinel), then run the update/write phases. -/
def ShardingPartialEncoder.partial_encode_opt (P : ShardingParams)
    (requests : List (ArraySubset × ArrayBytes)) :
    List (Nat × RawBytes) × Except CodecError Unit :=
  match P.decodeShardIndex with
  | Except.error e => ([], Except.error e)
  | Except.ok idxOpt =>
    partialEncodeWithIndex P requests
      (idxOpt.getD (List.replicate (P.numChunks * 2) U64MAX))

/-- Modelled from the spec: the moka LRU cache backing `ChunkCacheLruChunkLimit`
(moka is an external dependency).  Entries are kept most-recent-first; an
insert places the new entry at the front and the capacity bounds the number of
retained entries, evicting from the least-recent end. -/
structure LruCache (V : Type) where
  capacity : Nat
  entries : List (List Nat × V)

/-- The empty LRU cache of a given capacity. -/
def LruCache.empty (V : Type) (capacity : Nat) : LruCache V :=
  ⟨capacity, []⟩

/-- Cache lookup without a recency update. -/
def LruCache.lookup {V : Type} (c : LruCache V) (k : List Nat) : Option V :=
  List.lookup k c.entries

/-- `ChunkCache::get` on the count-limited LRU cache: a hit moves the entry to
the front (most recent). -/
def LruCache.get {V : Type} (c : LruCache V) (k : List Nat) :
    Option V × LruCache V :=
  match List.lookup k c.entries with
  | some v => (some v, ⟨c.capacity, (k, v) :: c.entries.eraseP (fun p => p.1 == k)⟩)
  | none => (none, c)

/-- `ChunkCache::insert` on the count-limited LRU cache: the new entry becomes
the most recent and at most `capacity` entries are retained. -/
def LruCache.insert {V : Type} (c : LruCache V) (k : List Nat) (v : V) :
    LruCache V :=
  ⟨c.capacity, List.take c.capacity ((k, v) :: c.entries.eraseP (fun p => p.1 == k))⟩

/-- A read through the count-limited LRU cache, as performed by
`retrieve_chunk_opt_cached`: on a miss the chunk is fetched and inserted. -/
def LruCache.read_through {V : Type} (c : LruCache V) (k : List Nat)
    (fetch : List Nat → V) : V × LruCache V :=
  match c.get k with
  | (some v, c') => (v, c')
  | (none, c') => (fetch k, c'.insert k (fetch k))

/-- Total weight of weighted-cache entries under a weigher. -/
def totalWeight {V : Type} (weigh : V → Nat) (l : List (List Nat × V)) : Nat :=
  (l.map (fun p => weigh p.2)).sum

/-- Modelled from the spec: eviction of the weighted (size-limited) moka cache.
While the total weight exceeds the capacity, the least recently used entry
(the last of the most-recent-first list) is evicted. -/
def trimLru {V : Type} (W : Nat) (weigh : V → Nat) (l : List (List Nat × V)) :
    List (List Nat × V) :=
  if totalWeight weigh l ≤ W then l else trimLru W weigh l.dropLast
termination_by l.length
decreasing_by
  cases l with
  | nil => simp [totalWeight] at *
  | cons a as => simp [List.length_dropLast]

/-- An operation against a weighted chunk cache. -/
inductive CacheOp (V : Type) where
  | get (k : List Nat)
  | insert (k : List Nat) (v : V)

/-- Modelled from the spec: one step of the weighted (size-limited) LRU cache.
A `get` hit moves the entry to the front; an `insert` places the entry at the
front and evicts least-recently-used entries until the total weight is within
the capacity `W`. -/
def applyCacheOp {V : Type} (W : Nat) (weigh : V → Nat)
    (entries : List (List Nat × V)) (op : CacheOp V) : List (List Nat × V) :=
  match op with
  | CacheOp.get k =>
      match List.lookup k entries with
      | some v => (k, v) :: entries.eraseP (fun p => p.1 == k)
      | none => entries
  | CacheOp.insert k v => trimLru W weigh ((k, v) :: entries.eraseP (fun p => p.1 == k))

/-- The array/store model needed by `retrieve_chunk_opt_cached`
(`array_chunk_cache_ext_encoded_sync.rs`): `store` models
`retrieve_encoded_chunk` (a store `get` of the chunk key, `none` when absent),
`inBounds` models the chunk-grid bound check performed by
`chunk_array_representation` / `chunk_shape`, `chunkShape` the clipped chunk
shape, and `dec` the codec chain's whole-chunk decode. -/
structure ArrayModel where
  store : List Nat → Option RawBytes
  inBounds : List Nat → Bool
  chunkShape : List Nat → List Nat
  dataTypeSize : Option Nat
  fill_value : List Nat
  dec : RawBytes → ChunkRepresentation → Except CodecError ArrayBytes

/-- The chunk representation of a chunk of the array (`chunk_array_representation`). -/
def ArrayModel.chunkRepresentation (arr : ArrayModel) (idx : List Nat) :
    ChunkRepresentation :=
  ⟨arr.chunkShape idx, arr.dataTypeSize, arr.fill_value⟩

/-- Errors of the array surface (`ArrayError`), reduced to the kinds the
embedded operations can raise. -/
inductive ArrayError where
  | invalidChunkIndices (idx : List Nat)
  | codec (e : CodecError)
  | validation
deriving DecidableEq

/-- A plain cache of encoded chunks keyed by chunk indices, holding
`Option RawBytes` entries (`ChunkCacheTypeEncoded`): enough of the cache
contract for the value-level behaviour of `retrieve_chunk_opt_cached`. -/
abbrev SimpleCache := List (List Nat × Option RawBytes)

/-- Embedding of `retrieve_chunk_opt_cached` for an encoded chunk cache
(`array_chunk_cache_ext_encoded_sync.rs`): fetch the encoded chunk through the
cache (`try_get_or_insert_with` around `retrieve_encoded_chunk`); a present
chunk is decoded through the codec chain and validated, an absent chunk is
materialised as a fill-value buffer. -/
def retrieve_chunk_opt_cached (arr : ArrayModel) (cache : SimpleCache)
    (chunk_indices : List Nat) :
    Except ArrayError (ArrayBytes × SimpleCache) :=
  let fetched :=
    match List.lookup chunk_indices cache with
    | some v => (v, cache)
    | none => (arr.store chunk_indices, (chunk_indices, arr.store chunk_indices) :: cache)
  match fetched.1 with
  | some bytes =>
      if arr.inBounds chunk_indices then
        match arr.dec bytes (arr.chunkRepresentation chunk_indices) with
        | Except.error e => Except.error (ArrayError.codec e)
        | Except.ok b =>
            if b.validate (arr.chunkRepresentation chunk_indices).numElements
                arr.dataTypeSize then
              Except.ok (b, fetched.2)
            else Except.error ArrayError.validation
      else Except.error (ArrayError.invalidChunkIndices chunk_indices)
  | none =>
      if arr.inBounds chunk_indices then
        Except.ok (ArrayBytes.new_fill_value (arr.chunkRepresentation chunk_indices),
          fetched.2)
      else Except.error (ArrayError.invalidChunkIndices chunk_indices)

/-- A concrete one-inner-chunk sharding configuration used to evaluate the
sharding theorems on explicit inputs. -/
def shardingParamsExample : ShardingParams where
  numChunks := 1
  innerRep := ⟨[1], some 1, [0]⟩
  decodeShardIndex := Except.ok none
  inputPartialDecode := fun _ _ => Except.ok none
  innerDec := fun _ => Except.ok (ArrayBytes.fixed [0])
  innerEnc := fun b =>
    match b with
    | ArrayBytes.fixed d => Except.ok d
    | ArrayBytes.vlen _ _ => Except.error (CodecError.other 1)
  indexEnc := fun _ => Except.ok [9]
  index_encoded_size := Except.ok 16
  index_location := ShardingIndexLocation.end_
  innerChunksOf := fun _ => Except.ok [0]
  updateInner := fun d _ _ _ => Except.ok d

/-- The same configuration with an inner encoder that always fails, used to
evaluate the failure-path theorems on explicit inputs. -/
def shardingParamsFailing : ShardingParams :=
  { shardingParamsExample with innerEnc := fun _ => Except.error (CodecError.other 7) }

/-! ### Helper lemmas -/

/-- The flattened repetition of a buffer has length `n * |buffer|`. -/
theorem length_flatten_replicate (n : Nat) (l : List Nat) :
    (List.replicate n l).flatten.length = n * l.length := by
  simp [List.length_flatten, List.map_replicate, List.sum_replicate, smul_eq_mul]

/-! ### Claim C1: the default (generic) array partial encoder -/

/-- Claim C1: `ArrayPartialEncoderDefault::partial_encode_opt` decodes the whole
chunk from the store (a missing chunk is materialised as the fill value),
validates it, splices each subset's bytes into the decoded chunk via
`update_array_bytes` in order, and then erases the chunk key when the result is
the fill value with store-empty-chunks off, otherwise re-encodes the whole
chunk and writes it from offset 0. -/
theorem default_partial_encoder_decode_update_write
    (codec : ArrayToBytesCodec)
    (update_array_bytes : ArrayBytes → List Nat → ArrayBytes → ArraySubset → Option Nat → ArrayBytes)
    (rep : ChunkRepresentation)
    (bopt : Option RawBytes) (store_empty_chunks : Bool)
    (chunk_subsets : List ArraySubset) (chunk_subsets_bytes : List ArrayBytes)
    (decoded : ArrayBytes)
    (hdec : (match bopt with
             | some bytes => codec.dec bytes
             | none => Except.ok (ArrayBytes.new_fill_value rep)) = Except.ok decoded)
    (hval : decoded.validate rep.numElements rep.dataTypeSize = true) :
    ((!store_empty_chunks && (((List.zip chunk_subsets chunk_subsets_bytes).foldl
        (fun acc p => update_array_bytes acc rep.shape p.2 p.1 rep.dataTypeSize)
        decoded).is_fill_value rep)) = true →
      ArrayPartialEncoderDefault.partial_encode_opt codec update_array_bytes rep
        (Except.ok bopt) store_empty_chunks chunk_subsets chunk_subsets_bytes =
        Except.ok [OutputAction.erase]) ∧
    ((!store_empty_chunks && (((List.zip chunk_subsets chunk_subsets_bytes).foldl
        (fun acc p => update_array_bytes acc rep.shape p.2 p.1 rep.dataTypeSize)
        decoded).is_fill_value rep)) = false →
      ArrayPartialEncoderDefault.partial_encode_opt codec update_array_bytes rep
        (Except.ok bopt) store_empty_chunks chunk_subsets chunk_subsets_bytes =
        (codec.enc ((List.zip chunk_subsets chunk_subsets_bytes).foldl
          (fun acc p => update_array_bytes acc rep.shape p.2 p.1 rep.dataTypeSize)
          decoded)).map (fun encoded => [OutputAction.write 0 encoded])) := by
  constructor
  · intro h
    simp [ArrayPartialEncoderDefault.partial_encode_opt, hdec, hval, h]
  · intro h
    simp [ArrayPartialEncoderDefault.partial_encode_opt, hdec, hval, h]
    cases codec.enc ((List.zip chunk_subsets chunk_subsets_bytes).foldl
        (fun acc p => update_array_bytes acc rep.shape p.2 p.1 rep.dataTypeSize)
        decoded) <;> simp [Except.map]

/-- Witness for C1: a concrete run on a missing chunk whose update leaves the
fill value, with store-empty-chunks off, erases the chunk key. -/
theorem default_partial_encoder_witness :
    ArrayPartialEncoderDefault.partial_encode_opt
      ⟨fun _ => Except.ok [1, 2], fun _ => Except.ok (ArrayBytes.fixed [])⟩
      (fun acc _ _ _ _ => acc) ⟨[], some 0, []⟩ (Except.ok none) false [] [] =
      Except.ok [OutputAction.erase] := by
  exact (default_partial_encoder_decode_update_write
    ⟨fun _ => Except.ok [1, 2], fun _ => Except.ok (ArrayBytes.fixed [])⟩
    (fun acc _ _ _ _ => acc) ⟨[], some 0, []⟩ none false [] []
    (ArrayBytes.fixed []) rfl (by decide)).1 (by decide)

/-! ### Claim C9: the default `try_get_or_insert_with` -/

/-- Claim C9: the default `ChunkCache::try_get_or_insert_with` returns the
cached value without invoking the closure when the key is present; when absent
it invokes the closure exactly once, propagates a closure error without
inserting anything (the cache is unchanged), and on success inserts the
computed value and returns it. -/
theorem try_get_or_insert_with_default_spec {C V E : Type}
    (get : C → List Nat → Option V) (insert : C → List Nat → V → C)
    (cache : C) (k : List Nat) (f : Unit → Except E V) :
    (∀ v, get cache k = some v →
      ChunkCache.try_get_or_insert_with get insert cache k f =
        (Except.ok v, cache, 0)) ∧
    (get cache k = none →
      (∀ e, f () = Except.error e →
        ChunkCache.try_get_or_insert_with get insert cache k f =
          (Except.error e, cache, 1)) ∧
      (∀ v, f () = Except.ok v →
        ChunkCache.try_get_or_insert_with get insert cache k f =
          (Except.ok v, insert cache k v, 1))) := by
  refine ⟨fun v hv => ?_, fun hn => ⟨fun e he => ?_, fun v hv => ?_⟩⟩ <;>
    simp [ChunkCache.try_get_or_insert_with, *]

/-- Witness for C9: a concrete miss whose closure succeeds inserts the value. -/
theorem try_get_or_insert_with_default_witness :
    ChunkCache.try_get_or_insert_with
      (fun (c : List (List Nat × Nat)) k => List.lookup k c)
      (fun c k v => (k, v) :: c) [] [0] (fun _ => (Except.ok 5 : Except Nat Nat)) =
      (Except.ok 5, [([0], 5)], 1) := by
  exact ((try_get_or_insert_with_default_spec
    (fun (c : List (List Nat × Nat)) k => List.lookup k c)
    (fun c k v => (k, v) :: c) [] [0] (fun _ => Except.ok 5)).2 rfl).2 5 rfl

/-! ### Claim C10: weigher saturation at `u32::MAX` -/

/-- Claim C10: both weighers of the size-limited cache saturate at `u32::MAX`:
an encoded or decoded entry whose byte size exceeds `u32::MAX` is weighted as
exactly `u32::MAX`, strictly undercounting its true size. -/
theorem weigher_saturates_u32max :
    (∀ b : RawBytes, U32MAX < b.length → encodedWeigher (some b) = U32MAX) ∧
    (∀ v : ArrayBytes, U32MAX < v.size → decodedWeigher v = U32MAX) ∧
    (∀ b : RawBytes, U32MAX < b.length → encodedWeigher (some b) < b.length) := by
  refine ⟨fun b h => ?_, fun v h => ?_, fun b h => ?_⟩
  · simp only [encodedWeigher]
    rw [if_neg (by omega)]
  · simp only [decodedWeigher]
    rw [if_neg (by omega)]
  · simp only [encodedWeigher]
    rw [if_neg (by omega)]
    exact h

/-- Witness for C10: a 2^32-byte buffer exceeds `u32::MAX` and is weighted as
`u32::MAX`. -/
theorem weigher_saturates_u32max_witness :
    U32MAX < (List.replicate (2 ^ 32) (0 : Nat)).length ∧
    encodedWeigher (some (List.replicate (2 ^ 32) (0 : Nat))) = U32MAX := by
  have hlen : (List.replicate (2 ^ 32) (0 : Nat)).length = 2 ^ 32 :=
    List.length_replicate _ _
  have hlt : U32MAX < (List.replicate (2 ^ 32) (0 : Nat)).length := by
    rw [hlen]; decide
  exact ⟨hlt, weigher_saturates_u32max.1 _ hlt⟩

/-! ### Claim C7 counterexample: the weight of a huge encoded chunk is not its length -/

/-- Counterexample to C7 as stated: the weight of a present encoded chunk of
2^32 bytes is `u32::MAX`, not `len(bytes)`. -/
theorem weighted_weight_not_length_cex :
    ¬ encodedWeigher (some (List.replicate (2 ^ 32) (0 : Nat))) =
      (List.replicate (2 ^ 32) (0 : Nat)).length := by
  have hlen : (List.replicate (2 ^ 32) (0 : Nat)).length = 2 ^ 32 :=
    List.length_replicate _ _
  simp only [encodedWeigher, hlen]
  rw [if_neg (by decide)]
  decide

/-! ### Claim C4: absent chunks read back as fill-value buffers -/

/-- Claim C4: retrieving an in-bounds chunk whose key is absent from the store
through the encoded chunk cache yields, without error, a fixed-width buffer of
exactly `num_elements * element_size` bytes filled with the array's fill
value (and caches the absence). -/
theorem retrieve_chunk_cached_absent_fill_value
    (arr : ArrayModel) (cache : SimpleCache) (idx : List Nat) (s : Nat)
    (hb : arr.inBounds idx = true)
    (habsent : arr.store idx = none)
    (hmiss : List.lookup idx cache = none)
    (hsize : arr.dataTypeSize = some s)
    (hfv : arr.fill_value.length = s) :
    retrieve_chunk_opt_cached arr cache idx =
      Except.ok (ArrayBytes.fixed
          (List.replicate (arr.chunkShape idx).prod arr.fill_value).flatten,
        (idx, none) :: cache) ∧
    ((List.replicate (arr.chunkShape idx).prod arr.fill_value).flatten).length =
      (arr.chunkShape idx).prod * s := by
  constructor
  · simp [retrieve_chunk_opt_cached, hmiss, habsent, hb, ArrayBytes.new_fill_value,
      ArrayModel.chunkRepresentation, ChunkRepresentation.numElements, hsize]
  · rw [length_flatten_replicate, hfv]

/-- Witness for C4: a concrete 2-element chunk with 3-byte fill value. -/
theorem retrieve_chunk_cached_absent_witness :
    retrieve_chunk_opt_cached
      ⟨fun _ => none, fun _ => true, fun _ => [2], some 3, [7, 7, 7],
        fun _ _ => Except.ok (ArrayBytes.fixed [])⟩ [] [0] =
      Except.ok (ArrayBytes.fixed [7, 7, 7, 7, 7, 7], [([0], none)]) := by
  have h := retrieve_chunk_cached_absent_fill_value
    ⟨fun _ => none, fun _ => true, fun _ => [2], some 3, [7, 7, 7],
      fun _ _ => Except.ok (ArrayBytes.fixed [])⟩ [] [0] 3 rfl rfl rfl rfl rfl
  exact h.1

/-! ### Association-list and LRU helper lemmas -/

/-- A key matching no entry looks up to `none`. -/
theorem lookup_eq_none_of_forall_ne {V : Type} (k : List Nat)
    (l : List (List Nat × V)) (h : ∀ p ∈ l, p.1 ≠ k) :
    List.lookup k l = none := by
  induction l with
  | nil => rfl
  | cons a t ih =>
    have hne : ¬ (k == a.1) = true := by
      simp only [beq_iff_eq]
      exact fun hk => h a (List.mem_cons_self a t) (hk ▸ rfl)
    simp only [List.lookup]
    rw [Bool.not_eq_true] at hne
    rw [hne]
    exact ih (fun p hp => h p (List.mem_cons_of_mem a hp))

/-- A key among the entry keys looks up to something. -/
theorem lookup_isSome_of_mem_keys {V : Type} (k : List Nat)
    (l : List (List Nat × V)) (h : k ∈ l.map Prod.fst) :
    (List.lookup k l).isSome = true := by
  induction l with
  | nil => simp at h
  | cons a t ih =>
    simp only [List.lookup]
    cases hka : k == a.1 with
    | true => rfl
    | false =>
      apply ih
      simp only [List.map_cons, List.mem_cons] at h
      rcases h with h | h
      · exact absurd (beq_iff_eq.mpr h) (by simp [hka])
      · exact h

/-- A successful lookup exhibits a permutation moving the found entry to the
front, with the remainder given by erasing the first entry with that key. -/
theorem perm_cons_eraseP_lookup {V : Type} (k : List Nat) (v : V)
    (l : List (List Nat × V)) (h : List.lookup k l = some v) :
    List.Perm l ((k, v) :: l.eraseP (fun p => p.1 == k)) := by
  induction l with
  | nil => simp [List.lookup] at h
  | cons a t ih =>
    simp only [List.lookup] at h
    cases hka : k == a.1 with
    | true =>
      rw [hka] at h
      have hk : k = a.1 := beq_iff_eq.mp hka
      have hv : a.2 = v := Option.some.inj h
      have hpred : (fun p : List Nat × V => p.1 == k) a = true := by
        show (a.1 == k) = true
        rw [beq_iff_eq]
        exact hk.symm
      rw [List.eraseP_cons_of_pos (p := fun p : List Nat × V => p.1 == k) hpred]
      have ha : a = (k, v) := Prod.ext hk.symm hv
      rw [ha]
    | false =>
      rw [hka] at h
      have h' : List.lookup k t = some v := h
      have hpred : ¬ (fun p : List Nat × V => p.1 == k) a = true := by
        show ¬ (a.1 == k) = true
        rw [beq_iff_eq]
        intro hk1
        rw [hk1] at hka
        simp at hka
      rw [List.eraseP_cons_of_neg (by simpa using hpred)]
      exact ((ih h').cons a).trans (List.Perm.swap (k, v) a _)

/-- Taking `n` of a cons absorbs an inner `take n`. -/
theorem take_cons_take {α : Type} (n : Nat) (a : α) (l : List α) :
    List.take n (a :: List.take n l) = List.take n (a :: l) := by
  cases n with
  | zero => rfl
  | succ m =>
    simp only [List.take_succ_cons, List.take_take]
    rw [min_eq_left (Nat.le_succ m)]

/-- Reading a list of pairwise-distinct chunk indices through a count-limited
LRU cache leaves exactly the `capacity` most recent keys, most recent first. -/
theorem lru_fold_keys {V : Type} (cap : Nat) (fetch : List Nat → V)
    (ks : List (List Nat)) (hnd : ks.Nodup) :
    ((ks.foldl (fun c k => (LruCache.read_through c k fetch).2)
        (LruCache.empty V cap)).entries).map Prod.fst = (ks.reverse).take cap ∧
    (ks.foldl (fun c k => (LruCache.read_through c k fetch).2)
        (LruCache.empty V cap)).capacity = cap := by
  induction ks using List.reverseRecOn with
  | nil => simp [LruCache.empty]
  | append_singleton p k ih =>
    have hp : p.Nodup := (List.nodup_append.mp hnd).1
    have hkp : k ∉ p := by
      have hd := (List.nodup_append.mp hnd).2.2
      intro hk
      exact hd hk (by simp)
    obtain ⟨hkeys, hcap⟩ := ih hp
    set c := p.foldl (fun c k => (LruCache.read_through c k fetch).2)
      (LruCache.empty V cap) with hc
    rw [List.foldl_concat]
    have hmem : k ∉ c.entries.map Prod.fst := by
      rw [hkeys]
      intro hk
      exact hkp (List.mem_reverse.mp (List.take_subset _ _ hk))
    have hlk : List.lookup k c.entries = none := by
      apply lookup_eq_none_of_forall_ne
      intro q hq hq1
      exact hmem (hq1 ▸ List.mem_map_of_mem Prod.fst hq)
    have herase : c.entries.eraseP (fun p => p.1 == k) = c.entries := by
      apply List.eraseP_of_forall_not
      intro q hq
      simp only [beq_iff_eq]
      intro hq1
      exact hmem (hq1 ▸ List.mem_map_of_mem Prod.fst hq)
    constructor
    · rw [LruCache.read_through]
      simp only [LruCache.get, hlk]
      simp only [LruCache.insert, herase]
      rw [List.map_take]
      simp only [List.map_cons]
      rw [hkeys, ← hc, hcap, take_cons_take, List.reverse_append]
      simp
    · rw [LruCache.read_through]
      simp only [LruCache.get, hlk]
      simp only [LruCache.insert]
      exact hcap

/-! ### Claim C6: count-limited LRU cache capacity -/

/-- Claim C6: after `N + 1` reads of distinct chunk indices through a
count-limited LRU cache of capacity `N`, exactly `N` entries remain, the most
recently read chunk is present, and the evicted entry is the least recently
used one (the first chunk read). -/
theorem lru_chunk_limit_capacity {V : Type} (N : Nat) (hN : 1 ≤ N)
    (ks : List (List Nat)) (fetch : List Nat → V)
    (hnd : ks.Nodup) (hlen : ks.length = N + 1) :
    ((ks.foldl (fun c k => (LruCache.read_through c k fetch).2)
        (LruCache.empty V N)).entries).length = N ∧
    ((ks.foldl (fun c k => (LruCache.read_through c k fetch).2)
        (LruCache.empty V N)).lookup (ks.getLastD [])).isSome = true ∧
    (ks.foldl (fun c k => (LruCache.read_through c k fetch).2)
        (LruCache.empty V N)).lookup (ks.headD []) = none := by
  obtain ⟨hkeys, -⟩ := lru_fold_keys N fetch ks hnd
  set c := ks.foldl (fun c k => (LruCache.read_through c k fetch).2)
    (LruCache.empty V N) with hc
  obtain ⟨k0, rest, rfl⟩ : ∃ k0 rest, ks = k0 :: rest := by
    cases ks with
    | nil => simp at hlen
    | cons a t => exact ⟨a, t, rfl⟩
  have hrl : rest.length = N := by
    simp only [List.length_cons] at hlen
    omega
  have hrev : (k0 :: rest).reverse = rest.reverse ++ [k0] := by
    simp
  have htake : ((k0 :: rest).reverse).take N = rest.reverse := by
    rw [hrev, List.take_append_of_le_length (by simp [hrl]),
      List.take_of_length_le (by simp [hrl])]
  refine ⟨?_, ?_, ?_⟩
  · have := congrArg List.length hkeys
    simpa [htake, hrl] using this
  · apply lookup_isSome_of_mem_keys
    rw [hkeys, htake]
    have hne : rest ≠ [] := by
      intro h
      rw [h] at hrl
      simp at hrl
      omega
    have : (k0 :: rest).getLastD [] = rest.getLast (by exact hne) := by
      rw [List.getLastD_cons, List.getLastD_eq_getLast?]
      rw [List.getLast?_eq_getLast rest hne]
      rfl
    rw [this]
    rw [List.mem_reverse]
    exact List.getLast_mem hne
  · apply lookup_eq_none_of_forall_ne
    intro q hq hq1
    have hq1' : q.1 = k0 := hq1
    have hmem : k0 ∈ c.entries.map Prod.fst :=
      hq1' ▸ List.mem_map_of_mem Prod.fst hq
    rw [hkeys, htake, List.mem_reverse] at hmem
    exact (List.nodup_cons.mp hnd).1 hmem

/-- Witness for C6: three distinct reads through a capacity-2 cache. -/
theorem lru_chunk_limit_capacity_witness :
    (([[0], [1], [2]].foldl
        (fun c k => (LruCache.read_through c k (fun _ => (0 : Nat))).2)
        (LruCache.empty Nat 2)).entries).length = 2 ∧
    (([[0], [1], [2]].foldl
        (fun c k => (LruCache.read_through c k (fun _ => (0 : Nat))).2)
        (LruCache.empty Nat 2)).lookup ([[0], [1], [2]].getLastD [])).isSome = true ∧
    ([[0], [1], [2]].foldl
        (fun c k => (LruCache.read_through c k (fun _ => (0 : Nat))).2)
        (LruCache.empty Nat 2)).lookup ([[0], [1], [2]].headD []) = none := by
  exact lru_chunk_limit_capacity 2 (by decide) [[0], [1], [2]] (fun _ => 0)
    (by decide) rfl

/-! ### Weighted-cache helper lemmas -/

/-- Trimming the weighted cache brings its total weight within the capacity. -/
theorem totalWeight_trimLru {V : Type} (W : Nat) (weigh : V → Nat)
    (l : List (List Nat × V)) :
    totalWeight weigh (trimLru W weigh l) ≤ W := by
  generalize hn : l.length = n
  induction n using Nat.strong_induction_on generalizing l with
  | _ n ih =>
    rw [trimLru]
    split
    · assumption
    · rename_i h
      have hne : l ≠ [] := by
        intro he
        rw [he] at h
        simp [totalWeight] at h
      have hpos : 0 < l.length := List.length_pos.mpr hne
      exact ih l.dropLast.length (by rw [List.length_dropLast]; omega) l.dropLast rfl

/-- Trimmed entries are an initial segment of the most-recent-first entry list:
eviction removes least recently used entries first. -/
theorem trimLru_eq_take {V : Type} (W : Nat) (weigh : V → Nat)
    (l : List (List Nat × V)) :
    ∃ k, trimLru W weigh l = l.take k := by
  generalize hn : l.length = n
  induction n using Nat.strong_induction_on generalizing l with
  | _ n ih =>
    rw [trimLru]
    split
    · exact ⟨l.length, (List.take_of_length_le (Nat.le_refl _)).symm⟩
    · rename_i h
      have hne : l ≠ [] := by
        intro he
        rw [he] at h
        simp [totalWeight] at h
      have hpos : 0 < l.length := List.length_pos.mpr hne
      obtain ⟨k, hk⟩ := ih l.dropLast.length
        (by rw [List.length_dropLast]; omega) l.dropLast rfl
      refine ⟨min k (l.length - 1), ?_⟩
      rw [hk, List.dropLast_eq_take, List.take_take]

/-- One weighted-cache operation keeps the total weight within the capacity. -/
theorem applyCacheOp_weight_le {V : Type} (W : Nat) (weigh : V → Nat)
    (entries : List (List Nat × V)) (op : CacheOp V)
    (h : totalWeight weigh entries ≤ W) :
    totalWeight weigh (applyCacheOp W weigh entries op) ≤ W := by
  cases op with
  | get k =>
    simp only [applyCacheOp]
    cases hlk : List.lookup k entries with
    | none => exact h
    | some v =>
      have hperm := perm_cons_eraseP_lookup k v entries hlk
      have htot : totalWeight weigh ((k, v) :: entries.eraseP (fun p => p.1 == k)) =
          totalWeight weigh entries := by
        simp only [totalWeight]
        exact ((hperm.map (fun p : List Nat × V => weigh p.2)).sum_eq).symm
      rw [htot]
      exact h
  | insert k v =>
    simp only [applyCacheOp]
    exact totalWeight_trimLru W weigh _

/-- Every sequence of weighted-cache operations keeps the total weight within
the capacity. -/
theorem foldl_applyCacheOp_weight_le {V : Type} (W : Nat) (weigh : V → Nat)
    (ops : List (CacheOp V)) (entries : List (List Nat × V))
    (h : totalWeight weigh entries ≤ W) :
    totalWeight weigh (ops.foldl (applyCacheOp W weigh) entries) ≤ W := by
  induction ops generalizing entries with
  | nil => exact h
  | cons op rest ih =>
    exact ih (applyCacheOp W weigh entries op) (applyCacheOp_weight_le W weigh entries op h)

/-! ### Claim C7 (amended): weighted cache weights and LRU eviction -/

/-- Claim C7, amended: the weight of a weighted-cache entry is `len(bytes)`
saturated at `u32::MAX` for a present encoded chunk and `0` for an absent one
(and the saturated total byte size including offsets for a decoded chunk);
after any sequence of get/insert operations the total weight of retained
entries never exceeds the capacity `W`, and eviction removes entries from the
least-recently-used end of the recency order. -/
theorem weighted_cache_weight_and_lru :
    encodedWeigher none = 0 ∧
    (∀ b : RawBytes, encodedWeigher (some b) = min b.length U32MAX) ∧
    (∀ v : ArrayBytes, decodedWeigher v = min v.size U32MAX) ∧
    (∀ (V : Type) (W : Nat) (weigh : V → Nat) (ops : List (CacheOp V)),
      totalWeight weigh (ops.foldl (applyCacheOp W weigh) []) ≤ W) ∧
    (∀ (V : Type) (W : Nat) (weigh : V → Nat) (l : List (List Nat × V)),
      ∃ k, trimLru W weigh l = l.take k) := by
  refine ⟨rfl, fun b => ?_, fun v => ?_, fun V W weigh ops => ?_, fun V W weigh l => ?_⟩
  · rw [Nat.min_def]
    rfl
  · rw [Nat.min_def]
    rfl
  · exact foldl_applyCacheOp_weight_le W weigh ops [] (by simp [totalWeight])
  · exact trimLru_eq_take W weigh l

/-! ### Shard-index helper lemmas -/

/-- Setting an index to a value reads back as that value (in range). -/
theorem getD_set_self (l : List Nat) (i a : Nat) (h : i < l.length) :
    (l.set i a).getD i 0 = a := by
  rw [List.getD_eq_getElem?_getD, List.getElem?_set_self (by omega)]
  rfl

/-- Setting one index leaves the others unchanged. -/
theorem getD_set_ne (l : List Nat) (i j a : Nat) (h : i ≠ j) :
    (l.set i a).getD j 0 = l.getD j 0 := by
  rw [List.getD_eq_getElem?_getD, List.getElem?_set_ne h, ← List.getD_eq_getElem?_getD]

/-- A position already holding the sentinel still holds it after any write of
the sentinel. -/
theorem getD_set_sentinel (l : List Nat) (i pos : Nat)
    (h : l.getD pos 0 = U64MAX) :
    (l.set i U64MAX).getD pos 0 = U64MAX := by
  by_cases hip : i = pos
  · subst hip
    by_cases hlen : i < l.length
    · exact getD_set_self l i U64MAX hlen
    · rw [List.getD_eq_default l 0 (by omega)] at h
      exact absurd h.symm (by decide)
  · rw [getD_set_ne l i pos U64MAX hip]
    exact h

/-- The head contribution of `max_data_offset`. -/
theorem pairContribution_cons_cons_zero (o s : Nat) (rest : List Nat) :
    pairContribution (o :: s :: rest) 0 =
      (if o = U64MAX ∧ s = U64MAX then 0 else o + s) := by
  simp [pairContribution]

/-- Contributions shift across a leading `(offset, size)` pair. -/
theorem pairContribution_cons_cons (o s : Nat) (rest : List Nat) (i : Nat) :
    pairContribution (o :: s :: rest) (i + 1) = pairContribution rest i := by
  have h2 : 2 * (i + 1) = 2 * i + 1 + 1 := by ring
  have h3 : 2 * (i + 1) + 1 = (2 * i + 1) + 1 + 1 := by ring
  simp only [pairContribution, h2, h3, List.getD_cons_succ]

/-- Every `(offset, size)` pair's contribution is bounded by `max_data_offset`. -/
theorem pairContribution_le_max_data_offset :
    ∀ (i : Nat) (si : List Nat), 2 * i + 1 < si.length →
      pairContribution si i ≤ max_data_offset si := by
  intro i
  induction i with
  | zero =>
    intro si h
    match si, h with
    | o :: s :: rest, _ =>
      rw [pairContribution_cons_cons_zero, max_data_offset]
      exact le_max_left _ _
  | succ n ih =>
    intro si h
    match si, h with
    | o :: s :: rest, h =>
      rw [pairContribution_cons_cons, max_data_offset]
      refine le_trans (ih rest ?_) (le_max_right _ _)
      simp only [List.length_cons] at h
      omega

/-- `max_data_offset` is zero or attained by some pair's contribution. -/
theorem max_data_offset_attained :
    ∀ si : List Nat, max_data_offset si = 0 ∨
      ∃ i, 2 * i + 1 < si.length ∧ pairContribution si i = max_data_offset si := by
  intro si
  match si with
  | [] => exact Or.inl rfl
  | [o] => exact Or.inl rfl
  | o :: s :: rest =>
    rw [max_data_offset]
    rcases max_choice (if o = U64MAX ∧ s = U64MAX then 0 else o + s)
      (max_data_offset rest) with h | h
    · rw [h]
      exact Or.inr ⟨0, by simp, by rw [pairContribution_cons_cons_zero]⟩
    · rw [h]
      rcases max_data_offset_attained rest with h0 | ⟨i, hi, hc⟩
      · exact Or.inl h0
      · refine Or.inr ⟨i + 1, ?_, ?_⟩
        · simp only [List.length_cons]
          omega
        · rw [pairContribution_cons_cons]
          exact hc

/-- A key absent from the first list looks up in the concatenation via the
second list. -/
theorem lookup_append_of_none {V : Type} (k : Nat) (l₁ l₂ : List (Nat × V))
    (h : List.lookup k l₁ = none) :
    List.lookup k (l₁ ++ l₂) = List.lookup k l₂ := by
  induction l₁ with
  | nil => rfl
  | cons a t ih =>
    simp only [List.lookup] at h ⊢
    cases hka : k == a.1 with
    | true =>
      rw [hka] at h
      exact Option.noConfusion h
    | false =>
      rw [hka] at h
      exact ih h

/-- An invariant-preservation principle for `foldlM` over `Except`. -/
theorem foldlM_inv {σ α : Type} (f : σ → α → Except CodecError σ)
    (I : σ → Prop) :
    ∀ (l : List α) (s s' : σ),
      (∀ t a, a ∈ l → I t → ∀ t', f t a = Except.ok t' → I t') →
      I s → List.foldlM f s l = Except.ok s' → I s' := by
  intro l
  induction l with
  | nil =>
    intro s s' _ hI hfold
    rw [List.foldlM_nil] at hfold
    cases hfold
    exact hI
  | cons a t ih =>
    intro s s' hstep hI hfold
    rw [List.foldlM_cons] at hfold
    cases hfa : f s a with
    | error e =>
      rw [hfa] at hfold
      exact Except.noConfusion hfold
    | ok s1 =>
      rw [hfa] at hfold
      have hfold' : List.foldlM f s1 t = Except.ok s' := hfold
      exact ih s1 s' (fun u b hb => hstep u b (List.mem_cons_of_mem a hb))
        (hstep s a (List.mem_cons_self a t) hI s1 hfa) hfold'

/-- A step failure aborts a `foldlM` over `Except` with that step's error. -/
theorem foldlM_error {σ α : Type} (f : σ → α → Except CodecError σ) :
    ∀ (l₁ : List α) (a : α) (l₂ : List α) (s s1 : σ) (e : CodecError),
      List.foldlM f s l₁ = Except.ok s1 → f s1 a = Except.error e →
      List.foldlM f s (l₁ ++ a :: l₂) = Except.error e := by
  intro l₁
  induction l₁ with
  | nil =>
    intro a l₂ s s1 e hpre hstep
    rw [List.foldlM_nil] at hpre
    cases hpre
    rw [List.nil_append, List.foldlM_cons, hstep]
    rfl
  | cons b t ih =>
    intro a l₂ s s1 e hpre hstep
    rw [List.foldlM_cons] at hpre
    cases hfb : f s b with
    | error e' =>
      rw [hfb] at hpre
      exact Except.noConfusion hpre
    | ok s' =>
      rw [hfb] at hpre
      have hpre' : List.foldlM f s' t = Except.ok s1 := hpre
      rw [List.cons_append, List.foldlM_cons, hfb]
      exact ih a l₂ s' s1 e hpre' hstep

/-! ### Claim C3: missing shard index initialises to the sentinel; sentinel decodes as fill -/

/-- Claim C3: when the shard index cannot be decoded from the store the
in-memory shard index is initialised with every entry equal to the sentinel
`u64::MAX` (the whole partial encode behaves exactly as if the decoded index
were the all-sentinel vector), and an inner chunk whose `(offset, size)` entry
is the sentinel pair decodes as a buffer filled with the fill value of the
inner chunk representation. -/
theorem sharding_missing_index_sentinel_fill (P : ShardingParams)
    (requests : List (ArraySubset × ArrayBytes))
    (hI : P.decodeShardIndex = Except.ok none) :
    ShardingPartialEncoder.partial_encode_opt P requests =
      partialEncodeWithIndex P requests (List.replicate (P.numChunks * 2) U64MAX) ∧
    decodeInnerChunk P U64MAX U64MAX =
      Except.ok (ArrayBytes.new_fill_value P.innerRep) ∧
    (∀ s : Nat, P.innerRep.dataTypeSize = some s →
      ArrayBytes.new_fill_value P.innerRep =
        ArrayBytes.fixed
          (List.replicate P.innerRep.numElements P.innerRep.fillValue).flatten ∧
      ((List.replicate P.innerRep.numElements P.innerRep.fillValue).flatten).length =
        P.innerRep.numElements * P.innerRep.fillValue.length) := by
  refine ⟨?_, ?_, ?_⟩
  · simp [ShardingPartialEncoder.partial_encode_opt, hI]
  · simp [decodeInnerChunk]
  · intro s hs
    exact ⟨by simp [ArrayBytes.new_fill_value, hs], length_flatten_replicate _ _⟩

/-- Witness for C3: the concrete sharding configuration decodes a sentinel
entry as the fill-value buffer. -/
theorem sharding_missing_index_sentinel_fill_witness :
    decodeInnerChunk shardingParamsExample U64MAX U64MAX =
      Except.ok (ArrayBytes.new_fill_value shardingParamsExample.innerRep) := by
  exact (sharding_missing_index_sentinel_fill shardingParamsExample [] rfl).2.1

/-! ### Claim C5: failure aborts the sharding partial encode without rollback -/

/-- When the first failing inner-chunk encode sits after `pre` successfully
encoded chunks, the write loop stops with that error; exactly the writes for
`pre` were issued and remain issued. -/
theorem writeUpdatedChunks_error (P : ShardingParams) :
    ∀ (pre : List (Nat × ArrayBytes)) (idx : Nat) (d : ArrayBytes)
      (post : List (Nat × ArrayBytes)) (si : List Nat) (o : Nat) (e : CodecError),
      (∀ p ∈ pre, ∃ b, P.innerEnc p.2 = Except.ok b) →
      P.innerEnc d = Except.error e →
      (writeUpdatedChunks P (pre ++ (idx, d) :: post) si o).2 = Except.error e ∧
      (writeUpdatedChunks P (pre ++ (idx, d) :: post) si o).1.length = pre.length := by
  intro pre
  induction pre with
  | nil =>
    intro idx d post si o e _ hfail
    refine ⟨?_, ?_⟩ <;> simp [writeUpdatedChunks, hfail]
  | cons q rest ih =>
    intro idx d post si o e hpre hfail
    obtain ⟨b, hb⟩ := hpre q (List.mem_cons_self q rest)
    have hq : q = (q.1, q.2) := rfl
    rw [List.cons_append]
    conv_lhs => rw [hq]
    simp only [writeUpdatedChunks, hb]
    have hr := ih idx d post ((si.set (2 * q.1) o).set (2 * q.1 + 1) b.length)
      (o + b.length) e (fun p hp => hpre p (List.mem_cons_of_mem q hp)) hfail
    refine ⟨hr.1, ?_⟩
    simp only [List.length_cons, hr.2]

/-- Claim C5: any inner-chunk decode failure, inner-chunk encode failure or
index-encode failure makes the whole sharding partial encode return that error
immediately, with no compensation: a decode failure fails the processing of
its inner chunk and aborts the update phase, so the operation errors before
any write; an encode failure aborts the write loop with exactly the writes for
the previously processed inner chunks issued and retained; an index-encode
failure returns the error with all inner-chunk writes retained and the shard
index not (re)written.  In no case is any previously issued write undone. -/
theorem sharding_partial_encode_failure_no_rollback
    (P : ShardingParams) (requests : List (ArraySubset × ArrayBytes)) :
    (∀ (subset : ArraySubset) (subset_bytes : ArrayBytes)
        (m : List (Nat × ArrayBytes)) (si : List Nat) (idx : Nat) (e : CodecError),
      List.lookup idx m = none →
      decodeInnerChunk P (si.getD (2 * idx) 0) (si.getD (2 * idx + 1) 0) =
        Except.error e →
      processInnerChunk P subset subset_bytes (m, si) idx = Except.error e) ∧
    (∀ (si0 : List Nat) (reqpre : List (ArraySubset × ArrayBytes))
        (req : ArraySubset × ArrayBytes) (reqpost : List (ArraySubset × ArrayBytes))
        (st1 st2 : List (Nat × ArrayBytes) × List Nat)
        (idxs ipre ipost : List Nat) (idx : Nat) (e : CodecError),
      updatePhase P reqpre ([], si0) = Except.ok st1 →
      P.innerChunksOf req.1 = Except.ok idxs →
      idxs = ipre ++ idx :: ipost →
      List.foldlM (processInnerChunk P req.1 req.2) st1 ipre = Except.ok st2 →
      processInnerChunk P req.1 req.2 st2 idx = Except.error e →
      updatePhase P (reqpre ++ req :: reqpost) ([], si0) = Except.error e) ∧
    (∀ (sio : Option (List Nat)) (e : CodecError),
      P.decodeShardIndex = Except.ok sio →
      updatePhase P requests
        ([], sio.getD (List.replicate (P.numChunks * 2) U64MAX)) =
        Except.error e →
      ShardingPartialEncoder.partial_encode_opt P requests =
        ([], Except.error e)) ∧
    (∀ (sio : Option (List Nat)) (m : List (Nat × ArrayBytes)) (si : List Nat)
        (ies : Nat) (pre post : List (Nat × ArrayBytes)) (idx : Nat)
        (d : ArrayBytes) (e : CodecError),
      P.decodeShardIndex = Except.ok sio →
      updatePhase P requests
        ([], sio.getD (List.replicate (P.numChunks * 2) U64MAX)) =
        Except.ok (m, si) →
      P.index_encoded_size = Except.ok ies →
      m = pre ++ (idx, d) :: post →
      (∀ p ∈ pre, ∃ b, P.innerEnc p.2 = Except.ok b) →
      P.innerEnc d = Except.error e →
      ShardingPartialEncoder.partial_encode_opt P requests =
        ((writeUpdatedChunks P m si
            (offsetAppendOf P.index_location (max_data_offset si) ies)).1,
          Except.error e) ∧
      (writeUpdatedChunks P m si
          (offsetAppendOf P.index_location (max_data_offset si) ies)).1.length =
        pre.length) ∧
    (∀ (sio : Option (List Nat)) (m : List (Nat × ArrayBytes)) (si : List Nat)
        (ies : Nat) (si2 : List Nat) (off2 : Nat) (e : CodecError),
      P.decodeShardIndex = Except.ok sio →
      updatePhase P requests
        ([], sio.getD (List.replicate (P.numChunks * 2) U64MAX)) =
        Except.ok (m, si) →
      P.index_encoded_size = Except.ok ies →
      (writeUpdatedChunks P m si
          (offsetAppendOf P.index_location (max_data_offset si) ies)).2 =
        Except.ok (si2, off2) →
      P.indexEnc si2 = Except.error e →
      ShardingPartialEncoder.partial_encode_opt P requests =
        ((writeUpdatedChunks P m si
            (offsetAppendOf P.index_location (max_data_offset si) ies)).1,
          Except.error e)) := by
  refine ⟨?_, ?_, ?_, ?_, ?_⟩
  · intro subset subset_bytes m si idx e hlook hdec
    simp only [processInnerChunk]
    rw [hlook, hdec]
  · intro si0 reqpre req reqpost st1 st2 idxs ipre ipost idx e hU1 hc hidxs hfold hfail
    have hg : (match P.innerChunksOf req.1 with
        | Except.error e => Except.error e
        | Except.ok idxs => idxs.foldlM (processInnerChunk P req.1 req.2) st1) =
        Except.error e := by
      rw [hc, hidxs]
      exact foldlM_error (processInnerChunk P req.1 req.2) ipre idx ipost st1 st2 e
        hfold hfail
    simp only [updatePhase] at hU1 ⊢
    exact foldlM_error _ reqpre req reqpost ([], si0) st1 e hU1 hg
  · intro sio e hI hU
    simp only [ShardingPartialEncoder.partial_encode_opt, hI]
    simp only [partialEncodeWithIndex, hU]
  · intro sio m si ies pre post idx d e hI hU hies hm hpre hfail
    have herr := writeUpdatedChunks_error P pre idx d post si
      (offsetAppendOf P.index_location (max_data_offset si) ies) e hpre hfail
    rw [← hm] at herr
    constructor
    · simp only [ShardingPartialEncoder.partial_encode_opt, hI]
      simp only [partialEncodeWithIndex, hU, hies, herr.1]
    · exact herr.2
  · intro sio m si ies si2 off2 e hI hU hies hwl hienc
    simp only [ShardingPartialEncoder.partial_encode_opt, hI]
    simp only [partialEncodeWithIndex, hU, hies, hwl, hienc]

/-- Witness for C5: with an always-failing inner encoder, a one-chunk update
aborts with that error, having issued no writes. -/
theorem sharding_partial_encode_error_witness :
    ShardingPartialEncoder.partial_encode_opt shardingParamsFailing
      [(⟨[0], [1]⟩, ArrayBytes.fixed [0])] =
      ([], Except.error (CodecError.other 7)) := by
  have h := (sharding_partial_encode_failure_no_rollback shardingParamsFailing
    [(⟨[0], [1]⟩, ArrayBytes.fixed [0])]).2.2.2.1 none
    [(0, ArrayBytes.fixed [0])] [U64MAX, U64MAX] 16
    [] [] 0 (ArrayBytes.fixed [0]) (CodecError.other 7)
    rfl rfl rfl rfl (by intro p hp; exact absurd hp (by simp)) rfl
  exact h.1

/-! ### Write-loop helper lemmas -/

/-- The write loop preserves the shard-index length. -/
theorem writeUpdatedChunks_length (P : ShardingParams) :
    ∀ (chunks : List (Nat × ArrayBytes)) (si : List Nat) (o : Nat)
      (si' : List Nat) (o' : Nat),
      (writeUpdatedChunks P chunks si o).2 = Except.ok (si', o') →
      si'.length = si.length := by
  intro chunks
  induction chunks with
  | nil =>
    intro si o si' o' hok
    simp only [writeUpdatedChunks] at hok
    cases hok
    rfl
  | cons q rest ih =>
    obtain ⟨j, c⟩ := q
    intro si o si' o' hok
    simp only [writeUpdatedChunks] at hok
    cases henc : P.innerEnc c with
    | error e =>
      rw [henc] at hok
      exact Except.noConfusion hok
    | ok b =>
      rw [henc] at hok
      have := ih ((si.set (2 * j) o).set (2 * j + 1) b.length) (o + b.length) si' o' hok
      simpa [List.length_set] using this

/-- Index positions belonging to no chunk in the write loop are unchanged. -/
theorem writeUpdatedChunks_untouched (P : ShardingParams) :
    ∀ (chunks : List (Nat × ArrayBytes)) (si : List Nat) (o : Nat)
      (si' : List Nat) (o' : Nat) (pos : Nat),
      (writeUpdatedChunks P chunks si o).2 = Except.ok (si', o') →
      (∀ p ∈ chunks, pos ≠ 2 * p.1 ∧ pos ≠ 2 * p.1 + 1) →
      si'.getD pos 0 = si.getD pos 0 := by
  intro chunks
  induction chunks with
  | nil =>
    intro si o si' o' pos hok _
    simp only [writeUpdatedChunks] at hok
    cases hok
    rfl
  | cons q rest ih =>
    obtain ⟨j, c⟩ := q
    intro si o si' o' pos hok hpos
    simp only [writeUpdatedChunks] at hok
    cases henc : P.innerEnc c with
    | error e =>
      rw [henc] at hok
      exact Except.noConfusion hok
    | ok b =>
      rw [henc] at hok
      have hrec := ih ((si.set (2 * j) o).set (2 * j + 1) b.length) (o + b.length)
        si' o' pos hok (fun p hp => hpos p (List.mem_cons_of_mem _ hp))
      have hhead := hpos (j, c) (List.mem_cons_self _ _)
      rw [hrec, getD_set_ne _ _ _ _ (fun h => hhead.2 h.symm),
        getD_set_ne _ _ _ _ (fun h => hhead.1 h.symm)]

/-- Full characterisation of the write loop: one write per updated inner chunk,
the `k`-th write at the append offset advanced by the lengths of the previous
writes, the final offset advanced by the total length, each write holding the
inner chunk's encoding, and the final shard index holding `(offset, len)` for
each written chunk. -/
theorem writeUpdatedChunks_spec (P : ShardingParams) :
    ∀ (chunks : List (Nat × ArrayBytes)) (si : List Nat) (o : Nat)
      (si' : List Nat) (o' : Nat),
      (chunks.map Prod.fst).Nodup →
      (∀ p ∈ chunks, 2 * p.1 + 1 < si.length) →
      (writeUpdatedChunks P chunks si o).2 = Except.ok (si', o') →
      (writeUpdatedChunks P chunks si o).1.length = chunks.length ∧
      o' = o + (((writeUpdatedChunks P chunks si o).1).map
        (fun w => w.2.length)).sum ∧
      (∀ k, k < chunks.length →
        (((writeUpdatedChunks P chunks si o).1).getD k (0, [])).1 =
          o + ((((writeUpdatedChunks P chunks si o).1).take k).map
            (fun w => w.2.length)).sum ∧
        P.innerEnc (chunks.getD k (0, ArrayBytes.fixed [])).2 =
          Except.ok (((writeUpdatedChunks P chunks si o).1).getD k (0, [])).2 ∧
        si'.getD (2 * (chunks.getD k (0, ArrayBytes.fixed [])).1) 0 =
          (((writeUpdatedChunks P chunks si o).1).getD k (0, [])).1 ∧
        si'.getD (2 * (chunks.getD k (0, ArrayBytes.fixed [])).1 + 1) 0 =
          (((writeUpdatedChunks P chunks si o).1).getD k (0, [])).2.length) := by
  intro chunks
  induction chunks with
  | nil =>
    intro si o si' o' _ _ hok
    simp only [writeUpdatedChunks] at hok ⊢
    cases hok
    refine ⟨rfl, by simp, ?_⟩
    intro k hk
    exact absurd hk (by simp)
  | cons q rest ih =>
    obtain ⟨j, c⟩ := q
    intro si o si' o' hnd hrange hok
    simp only [writeUpdatedChunks] at hok ⊢
    cases henc : P.innerEnc c with
    | error e =>
      rw [henc] at hok
      exact Except.noConfusion hok
    | ok b =>
      rw [henc] at hok
      have hlen1 : ((si.set (2 * j) o).set (2 * j + 1) b.length).length = si.length := by
        simp [List.length_set]
      have hnd' : (rest.map Prod.fst).Nodup := (List.nodup_cons.mp hnd).2
      have hjnot : j ∉ rest.map Prod.fst := (List.nodup_cons.mp hnd).1
      have hrange' : ∀ p ∈ rest, 2 * p.1 + 1 <
          ((si.set (2 * j) o).set (2 * j + 1) b.length).length := by
        intro p hp
        rw [hlen1]
        exact hrange p (List.mem_cons_of_mem _ hp)
      obtain ⟨ihlen, ihsum, ihk⟩ := ih ((si.set (2 * j) o).set (2 * j + 1) b.length)
        (o + b.length) si' o' hnd' hrange' hok
      have hjpos : ∀ p ∈ rest, (2 * j : Nat) ≠ 2 * p.1 ∧ (2 * j : Nat) ≠ 2 * p.1 + 1 := by
        intro p hp
        have : j ≠ p.1 := by
          intro hj
          exact hjnot (hj ▸ List.mem_map_of_mem Prod.fst hp)
        omega
      have hjpos' : ∀ p ∈ rest, (2 * j + 1 : Nat) ≠ 2 * p.1 ∧
          (2 * j + 1 : Nat) ≠ 2 * p.1 + 1 := by
        intro p hp
        have : j ≠ p.1 := by
          intro hj
          exact hjnot (hj ▸ List.mem_map_of_mem Prod.fst hp)
        omega
      have hj2 : 2 * j + 1 < si.length := hrange (j, c) (List.mem_cons_self _ _)
      have huntouched0 : si'.getD (2 * j) 0 = o := by
        rw [writeUpdatedChunks_untouched P rest _ _ si' o' (2 * j) hok hjpos,
          getD_set_ne _ _ _ _ (by omega), getD_set_self _ _ _ (by omega)]
      have huntouched1 : si'.getD (2 * j + 1) 0 = b.length := by
        rw [writeUpdatedChunks_untouched P rest _ _ si' o' (2 * j + 1) hok hjpos',
          getD_set_self _ _ _ (by rw [List.length_set]; omega)]
      refine ⟨by simp [ihlen], ?_, ?_⟩
      · simp only [List.map_cons, List.sum_cons]
        omega
      · intro k hk
        cases k with
        | zero =>
          refine ⟨by simp, by simp [henc], ?_, ?_⟩
          · simpa using huntouched0
          · simpa using huntouched1
        | succ k' =>
          have hk' : k' < rest.length := by
            simp only [List.length_cons] at hk
            omega
          obtain ⟨ih1, ih2, ih3, ih4⟩ := ihk k' hk'
          refine ⟨?_, ?_, ?_, ?_⟩
          · simp only [List.getD_cons_succ, List.take_succ_cons, List.map_cons,
              List.sum_cons]
            omega
          · simpa [List.getD_cons_succ] using ih2
          · simpa [List.getD_cons_succ] using ih3
          · simpa [List.getD_cons_succ] using ih4

/-! ### Claim C2: sharding append offset and write loop -/

/-- Claim C2: the append offset is the maximum over the shard index of each
entry's `offset + size` (sentinel entries contributing 0), raised to at least
the encoded index size when the index is located at the start; each updated
inner chunk is then encoded and written at the current append offset, its
index entry is set to that offset and the encoded length, and the append
offset advances by that length. -/
theorem sharding_append_offset_and_write_loop
    (P : ShardingParams) (chunks : List (Nat × ArrayBytes)) (si si' : List Nat)
    (o o' : Nat)
    (hnd : (chunks.map Prod.fst).Nodup)
    (hrange : ∀ p ∈ chunks, 2 * p.1 + 1 < si.length)
    (hok : (writeUpdatedChunks P chunks si o).2 = Except.ok (si', o')) :
    (∀ (si₀ : List Nat) (i : Nat), 2 * i + 1 < si₀.length →
      pairContribution si₀ i ≤ max_data_offset si₀) ∧
    (∀ si₀ : List Nat, max_data_offset si₀ = 0 ∨
      ∃ i, 2 * i + 1 < si₀.length ∧
        pairContribution si₀ i = max_data_offset si₀) ∧
    (∀ (loc : ShardingIndexLocation) (mdo ies : Nat),
      mdo ≤ offsetAppendOf loc mdo ies) ∧
    (∀ mdo ies : Nat, ies ≤ offsetAppendOf ShardingIndexLocation.start mdo ies) ∧
    (∀ mdo ies : Nat, offsetAppendOf ShardingIndexLocation.end_ mdo ies = mdo) ∧
    (writeUpdatedChunks P chunks si o).1.length = chunks.length ∧
    o' = o + (((writeUpdatedChunks P chunks si o).1).map
      (fun w => w.2.length)).sum ∧
    (∀ k, k < chunks.length →
      (((writeUpdatedChunks P chunks si o).1).getD k (0, [])).1 =
        o + ((((writeUpdatedChunks P chunks si o).1).take k).map
          (fun w => w.2.length)).sum ∧
      P.innerEnc (chunks.getD k (0, ArrayBytes.fixed [])).2 =
        Except.ok (((writeUpdatedChunks P chunks si o).1).getD k (0, [])).2 ∧
      si'.getD (2 * (chunks.getD k (0, ArrayBytes.fixed [])).1) 0 =
        (((writeUpdatedChunks P chunks si o).1).getD k (0, [])).1 ∧
      si'.getD (2 * (chunks.getD k (0, ArrayBytes.fixed [])).1 + 1) 0 =
        (((writeUpdatedChunks P chunks si o).1).getD k (0, [])).2.length) := by
  obtain ⟨h1, h2, h3⟩ := writeUpdatedChunks_spec P chunks si o si' o' hnd hrange hok
  refine ⟨fun si₀ i h => pairContribution_le_max_data_offset i si₀ h,
    max_data_offset_attained, ?_, fun mdo ies => le_max_right _ _,
    fun mdo ies => rfl, h1, h2, h3⟩
  intro loc mdo ies
  cases loc with
  | start => exact le_max_left _ _
  | end_ => exact le_refl _

/-- Witness for C2: one concrete inner chunk written at append offset 10 with
its index entry set to `(10, 1)` and the offset advanced to 11. -/
theorem sharding_append_offset_witness :
    (writeUpdatedChunks shardingParamsExample [(0, ArrayBytes.fixed [5])]
        [U64MAX, U64MAX] 10).1.length = 1 := by
  exact (sharding_append_offset_and_write_loop shardingParamsExample
    [(0, ArrayBytes.fixed [5])] [U64MAX, U64MAX] [10, 1] 10 11
    (by decide) (by decide) rfl).2.2.2.2.2.1

/-! ### Update-phase invariant lemmas -/

/-- A successful lookup means some entry carries the key. -/
theorem lookup_some_mem_keys {V : Type} (k : Nat) :
    ∀ (l : List (Nat × V)) (v : V), List.lookup k l = some v →
      ∃ q ∈ l, q.1 = k := by
  intro l
  induction l with
  | nil =>
    intro v h
    exact Option.noConfusion h
  | cons a t ih =>
    intro v h
    simp only [List.lookup] at h
    cases hka : k == a.1 with
    | true =>
      exact ⟨a, List.mem_cons_self a t, (beq_iff_eq.mp hka).symm⟩
    | false =>
      rw [hka] at h
      obtain ⟨q, hq, hq1⟩ := ih v h
      exact ⟨q, List.mem_cons_of_mem a hq, hq1⟩

/-- Processing one inner chunk keeps every mapped inner chunk's index entries
at the sentinel and preserves the shard-index length. -/
theorem processInnerChunk_inv (P : ShardingParams) (subset : ArraySubset)
    (subset_bytes : ArrayBytes) (L : Nat) (idx : Nat)
    (hidx : 2 * idx + 1 < L)
    (st st' : List (Nat × ArrayBytes) × List Nat)
    (hI : (∀ p ∈ st.1, st.2.getD (2 * p.1) 0 = U64MAX ∧
        st.2.getD (2 * p.1 + 1) 0 = U64MAX) ∧ st.2.length = L)
    (hok : processInnerChunk P subset subset_bytes st idx = Except.ok st') :
    (∀ p ∈ st'.1, st'.2.getD (2 * p.1) 0 = U64MAX ∧
      st'.2.getD (2 * p.1 + 1) 0 = U64MAX) ∧ st'.2.length = L := by
  obtain ⟨m, si⟩ := st
  obtain ⟨hsent, hL⟩ := hI
  simp only at hsent hL
  simp only [processInnerChunk] at hok
  cases hlook : List.lookup idx m with
  | some d0 =>
    rw [hlook] at hok
    have hok3 : (match P.updateInner d0 subset subset_bytes idx with
        | Except.error e => Except.error e
        | Except.ok updated => Except.ok (assocSet m idx updated, si)) =
        Except.ok st' := by
      have hok2 : (match List.lookup idx m with
          | some decoded =>
            match P.updateInner decoded subset subset_bytes idx with
            | Except.error e => Except.error e
            | Except.ok updated => Except.ok (assocSet m idx updated, si)
          | none => Except.error (CodecError.other 0)) = Except.ok st' := hok
      rw [hlook] at hok2
      exact hok2
    cases hupd : P.updateInner d0 subset subset_bytes idx with
    | error e =>
      rw [hupd] at hok3
      exact Except.noConfusion hok3
    | ok u =>
      rw [hupd] at hok3
      cases hok3
      have hkey : ∃ q ∈ m, q.1 = idx := lookup_some_mem_keys idx m d0 hlook
      refine ⟨?_, hL⟩
      intro p hp
      simp only [assocSet, List.mem_map] at hp
      obtain ⟨q, hq, hpq⟩ := hp
      by_cases hq1 : q.1 = idx
      · rw [if_pos hq1] at hpq
        obtain ⟨q0, hq0, hq01⟩ := hkey
        have := hsent q0 hq0
        rw [hq01] at this
        rw [← hpq]
        exact this
      · rw [if_neg hq1] at hpq
        rw [← hpq]
        exact hsent q hq
  | none =>
    rw [hlook] at hok
    cases hdec : decodeInnerChunk P (si.getD (2 * idx) 0) (si.getD (2 * idx + 1) 0) with
    | error e =>
      rw [hdec] at hok
      exact Except.noConfusion hok
    | ok dec =>
      rw [hdec] at hok
      have hlk2 : List.lookup idx (m ++ [(idx, dec)]) = some dec := by
        rw [lookup_append_of_none idx m [(idx, dec)] hlook]
        simp [List.lookup]
      have hok3 : (match P.updateInner dec subset subset_bytes idx with
          | Except.error e => Except.error e
          | Except.ok updated => Except.ok (assocSet (m ++ [(idx, dec)]) idx updated,
              (si.set (2 * idx) U64MAX).set (2 * idx + 1) U64MAX)) =
          Except.ok st' := by
        have hok2 : (match List.lookup idx (m ++ [(idx, dec)]) with
            | some decoded =>
              match P.updateInner decoded subset subset_bytes idx with
              | Except.error e => Except.error e
              | Except.ok updated => Except.ok (assocSet (m ++ [(idx, dec)]) idx updated,
                  (si.set (2 * idx) U64MAX).set (2 * idx + 1) U64MAX)
            | none => Except.error (CodecError.other 0)) = Except.ok st' := hok
        rw [hlk2] at hok2
        exact hok2
      cases hupd : P.updateInner dec subset subset_bytes idx with
      | error e =>
        rw [hupd] at hok3
        exact Except.noConfusion hok3
      | ok u =>
        rw [hupd] at hok3
        cases hok3
        have hL2 : ((si.set (2 * idx) U64MAX).set (2 * idx + 1) U64MAX).length = L := by
          simp [List.length_set, hL]
        have hsent_idx :
            ((si.set (2 * idx) U64MAX).set (2 * idx + 1) U64MAX).getD (2 * idx) 0 =
              U64MAX ∧
            ((si.set (2 * idx) U64MAX).set (2 * idx + 1) U64MAX).getD (2 * idx + 1) 0 =
              U64MAX := by
          constructor
          · rw [getD_set_ne _ _ _ _ (by omega), getD_set_self _ _ _ (by omega)]
          · rw [getD_set_self _ _ _ (by rw [List.length_set]; omega)]
        refine ⟨?_, hL2⟩
        intro p hp
        simp only [assocSet, List.mem_map] at hp
        obtain ⟨q, hq, hpq⟩ := hp
        by_cases hq1 : q.1 = idx
        · rw [if_pos hq1] at hpq
          rw [← hpq]
          exact hsent_idx
        · rw [if_neg hq1] at hpq
          rw [← hpq]
          rcases List.mem_append.mp hq with hqm | hqs
          · have := hsent q hqm
            exact ⟨getD_set_sentinel _ _ _ (getD_set_sentinel _ _ _ this.1),
              getD_set_sentinel _ _ _ (getD_set_sentinel _ _ _ this.2)⟩
          · simp only [List.mem_singleton] at hqs
            exact absurd (congrArg Prod.fst hqs) hq1

/-- Through the whole update phase, every inner chunk recorded in the
in-memory map has both of its shard-index entries reset to the sentinel, and
the shard-index length is unchanged. -/
theorem updatePhase_inv (P : ShardingParams)
    (requests : List (ArraySubset × ArrayBytes)) (si0 : List Nat)
    (m' : List (Nat × ArrayBytes)) (si' : List Nat)
    (hrange : ∀ subset idxs, P.innerChunksOf subset = Except.ok idxs →
      ∀ i ∈ idxs, 2 * i + 1 < si0.length)
    (hU : updatePhase P requests ([], si0) = Except.ok (m', si')) :
    (∀ p ∈ m', si'.getD (2 * p.1) 0 = U64MAX ∧
      si'.getD (2 * p.1 + 1) 0 = U64MAX) ∧ si'.length = si0.length := by
  simp only [updatePhase] at hU
  refine foldlM_inv _
    (fun st => (∀ p ∈ st.1, st.2.getD (2 * p.1) 0 = U64MAX ∧
      st.2.getD (2 * p.1 + 1) 0 = U64MAX) ∧ st.2.length = si0.length)
    requests ([], si0) (m', si') ?_
    ⟨fun p hp => absurd hp (List.not_mem_nil p), rfl⟩ hU
  intro t req _ hIt t' hft
  have hft' : (match P.innerChunksOf req.1 with
      | Except.error e => Except.error e
      | Except.ok idxs => idxs.foldlM (processInnerChunk P req.1 req.2) t) =
      Except.ok t' := hft
  cases hc : P.innerChunksOf req.1 with
  | error e =>
    rw [hc] at hft'
    exact Except.noConfusion hft'
  | ok idxs =>
    rw [hc] at hft'
    exact foldlM_inv (processInnerChunk P req.1 req.2)
      (fun st => (∀ p ∈ st.1, st.2.getD (2 * p.1) 0 = U64MAX ∧
        st.2.getD (2 * p.1 + 1) 0 = U64MAX) ∧ st.2.length = si0.length)
      idxs t t'
      (fun u i hi hIu u' hu' =>
        processInnerChunk_inv P req.1 req.2 si0.length i
          (hrange req.1 idxs hc i hi) u u' ⟨hIu.1, hIu.2⟩ hu')
      hIt hft'

/-! ### Claim C8: updated entries are sentinel before the append offset is computed -/

/-- Claim C8: before the append offset is computed, the shard-index entries of
every inner chunk about to be rewritten are reset to the sentinel, so the
append offset is determined only by the inner chunks not being updated: every
pair still bounds `max_data_offset` from below, and when it is nonzero it is
attained at a pair whose inner chunk is not in the update map (a rewritten
tail chunk is therefore overwritten rather than orphaned). -/
theorem sharding_update_resets_index_to_sentinel (P : ShardingParams)
    (requests : List (ArraySubset × ArrayBytes)) (si0 : List Nat)
    (m' : List (Nat × ArrayBytes)) (si' : List Nat)
    (hrange : ∀ subset idxs, P.innerChunksOf subset = Except.ok idxs →
      ∀ i ∈ idxs, 2 * i + 1 < si0.length)
    (hU : updatePhase P requests ([], si0) = Except.ok (m', si')) :
    (∀ p ∈ m', si'.getD (2 * p.1) 0 = U64MAX ∧
      si'.getD (2 * p.1 + 1) 0 = U64MAX) ∧
    (∀ i, 2 * i + 1 < si'.length →
      pairContribution si' i ≤ max_data_offset si') ∧
    (max_data_offset si' = 0 ∨
      ∃ i, (∀ p ∈ m', i ≠ p.1) ∧ 2 * i + 1 < si'.length ∧
        pairContribution si' i = max_data_offset si') := by
  obtain ⟨hsent, hlen⟩ := updatePhase_inv P requests si0 m' si' hrange hU
  refine ⟨hsent, fun i h => pairContribution_le_max_data_offset i si' h, ?_⟩
  rcases max_data_offset_attained si' with h0 | ⟨i, hi, hc⟩
  · exact Or.inl h0
  · by_cases hz : max_data_offset si' = 0
    · exact Or.inl hz
    · refine Or.inr ⟨i, ?_, hi, hc⟩
      intro p hp hip
      have hs := hsent p hp
      rw [← hip] at hs
      have : pairContribution si' i = 0 := by
        unfold pairContribution
        exact if_pos ⟨hs.1, hs.2⟩
      rw [this] at hc
      exact hz hc.symm

/-- Witness for C8: after the one-chunk update the inner chunk's entries are
the sentinel. -/
theorem sharding_update_sentinel_witness :
    ([U64MAX, U64MAX] : List Nat).getD 0 0 = U64MAX ∧
    ([U64MAX, U64MAX] : List Nat).getD 1 0 = U64MAX := by
  have h := (sharding_update_resets_index_to_sentinel shardingParamsExample
    [(⟨[0], [1]⟩, ArrayBytes.fixed [0])] [U64MAX, U64MAX]
    [(0, ArrayBytes.fixed [0])] [U64MAX, U64MAX]
    (by
      intro s idxs h i hi
      cases h
      simp only [List.mem_singleton] at hi
      subst hi
      decide)
    rfl).1 (0, ArrayBytes.fixed [0]) (by simp)
  exact ⟨h.1, h.2⟩

end Zarrs
